import Mathlib

/-!
Shallow embedding of the nonce-management core of the SUBSTRATE-BACKEND-API
service (src/nonce_manager.rs, src/transaction.rs, src/handlers.rs,
src/main.rs), together with theorems settling the specification claims.

Modelling conventions:
* The 32-byte account key (`[u8; 32]`, byte-wise equality) is modelled as an
  abstract key type `K` with decidable equality; the claims do not depend on
  the byte structure of keys.
* The `HashMap<[u8; 32], u64>` nonce cache is modelled as an association list
  with the usual replace-or-append `insert` and first-match lookup; iteration
  order of `sync_with_chain` is the list order (the Rust `HashMap` iteration
  order is unspecified, and no claim depends on a particular order).
* `u64` values are `Nat`; the one place the Rust code performs arithmetic
  (`nonce_to_use + 1` in `get_next_nonce`) is written with an explicit
  `% 2 ^ 64`, the wrapping semantics of unchecked `u64` addition.
* The blockchain RPC (`self.client.tx().account_nonce(...)`) is an external
  collaborator; its outcome is passed in as an `Except RpcError Nat` value
  (for `sync_with_chain`, as a per-key oracle describing the sweep's RPC
  outcomes). Rust's `?` operator becomes the `Except.error` short-circuit.
-/

/-- Errors produced by the ledger RPC collaborator
(`Box<dyn std::error::Error + Send + Sync>` in the Rust code). -/
abbrev RpcError := String

/-- `2 ^ 64`, the modulus of Rust `u64` arithmetic. -/
def U64_SIZE : Nat := 2 ^ 64

/-- The nonce cache `HashMap<[u8; 32], u64>` of `NonceManager`, modelled as an
association list from account keys to `u64` values. -/
abbrev NonceCache (K : Type) := List (K × Nat)

/-- `HashMap::get` (first entry with a matching key). -/
def NonceCache.get? {K : Type} [DecidableEq K] : NonceCache K → K → Option Nat
  | [], _ => none
  | (a, b) :: l, k => if a = k then some b else NonceCache.get? l k

/-- `HashMap::insert`: replace the value of the matching entry if the key is
present, otherwise add a new entry. -/
def NonceCache.insert {K : Type} [DecidableEq K] : NonceCache K → K → Nat → NonceCache K
  | [], k, v => [(k, v)]
  | (a, b) :: l, k, v =>
    if a = k then (a, v) :: l else (a, b) :: NonceCache.insert l k v

/-- `NonceManager::get_next_nonce` (src/nonce_manager.rs lines 40-78).
`chainResult` is the outcome of `self.client.tx().account_nonce(account_id)`;
on its failure the `?` operator returns before any cache mutation. On success
the candidate nonce is `cached.max(chain_nonce)` when a cache entry exists and
`chain_nonce` otherwise; `candidate + 1` (wrapping `u64` addition) is written
back and the candidate is returned. -/
def get_next_nonce {K : Type} [DecidableEq K] (cache : NonceCache K) (k : K)
    (chainResult : Except RpcError Nat) : Except RpcError Nat × NonceCache K :=
  match chainResult with
  | Except.error e => (Except.error e, cache)
  | Except.ok chain_nonce =>
    let cached_nonce := NonceCache.get? cache k
    let nonce_to_use :=
      match cached_nonce with
      | some cached => Nat.max cached chain_nonce
      | none => chain_nonce
    (Except.ok nonce_to_use,
      NonceCache.insert cache k ((nonce_to_use + 1) % U64_SIZE))

/-- `NonceManager::reset_nonce` (src/nonce_manager.rs lines 88-99):
unconditionally `cache.insert(account_id.0, failed_nonce)`. -/
def reset_nonce {K : Type} [DecidableEq K] (cache : NonceCache K) (k : K)
    (failed_nonce : Nat) : NonceCache K :=
  NonceCache.insert cache k failed_nonce

/-- `NonceManager::sync_with_chain` (src/nonce_manager.rs lines 115-140).
`f` gives the outcome of the per-account `account_nonce` RPC during this
sweep. Each entry is raised to the chain nonce when the chain is strictly
ahead; on an RPC failure the `?` operator aborts the sweep, leaving the
failing entry and all later entries untouched (earlier in-place updates
persist). -/
def sync_with_chain {K : Type} :
    NonceCache K → (K → Except RpcError Nat) → Except RpcError Unit × NonceCache K
  | [], _ => (Except.ok (), [])
  | (a, b) :: rest, f =>
    match f a with
    | Except.error e => (Except.error e, (a, b) :: rest)
    | Except.ok chain_nonce =>
      let tail := sync_with_chain rest f
      (tail.1, (a, if chain_nonce > b then chain_nonce else b) :: tail.2)

/-- The effect of one `sync_with_chain` iteration on a single cache entry,
when the sweep reaches it and its RPC succeeds. -/
def syncEntry {K : Type} (f : K → Except RpcError Nat) (p : K × Nat) : K × Nat :=
  match f p.1 with
  | Except.ok chain_nonce => (p.1, if chain_nonce > p.2 then chain_nonce else p.2)
  | Except.error _ => p

/-- `create_signed_transaction_with_nonce` (src/transaction.rs lines 32-75),
abstracted over the outcomes of its two construction attempts: the result of
`try_with_explicit_nonce` and the result of the fallback
`client.tx().create_signed(call, signer, Default::default())`. The explicit
attempt's transaction is returned when it succeeds; otherwise the fallback's
result (success or error) is returned unchanged. -/
def create_signed_transaction_with_nonce {E T : Type}
    (explicitRes fallbackRes : Except E T) : Except E T :=
  match explicitRes with
  | Except.ok tx => Except.ok tx
  | Except.error _ => fallbackRes

/-- Observable outcome of one `do_something_handler` run: the `success` field
of the response and the `reset_nonce` calls made (key and nonce, in order). -/
structure HandlerResult (K : Type) where
  success : Bool
  resets : List (K × Nat)

/-- `do_something_handler` (src/handlers.rs lines 162-368), abstracted over
the outcomes of its external calls: signer parsing, the allocate-time chain
RPC, the two construction attempts, `submit_and_watch`,
`wait_for_finalized_success`, and the final `blocks().at_latest()` fetch.
Returns the observable handler outcome and the final nonce cache. -/
def do_something_handler {K : Type} [DecidableEq K] (cache : NonceCache K)
    (signerOk : Bool) (k : K) (chainResult : Except RpcError Nat)
    (explicitRes fallbackRes : Except String Unit)
    (submitRes finalizeRes : Except String Unit)
    (blockFetchOk : Bool) : HandlerResult K × NonceCache K :=
  if signerOk = false then (⟨false, []⟩, cache)
  else
    match get_next_nonce cache k chainResult with
    | (Except.error _, c1) => (⟨false, []⟩, c1)
    | (Except.ok nonce, c1) =>
      match create_signed_transaction_with_nonce explicitRes fallbackRes with
      | Except.error _ => (⟨false, [(k, nonce)]⟩, reset_nonce c1 k nonce)
      | Except.ok _ =>
        match submitRes with
        | Except.error _ => (⟨false, [(k, nonce)]⟩, reset_nonce c1 k nonce)
        | Except.ok _ =>
          match finalizeRes with
          | Except.error _ => (⟨false, [(k, nonce)]⟩, reset_nonce c1 k nonce)
          | Except.ok _ =>
            if blockFetchOk then (⟨true, []⟩, c1) else (⟨false, []⟩, c1)

/-- One call into the `NonceManager` API. -/
inductive NonceOp (K : Type) where
  | alloc (k : K) (chainResult : Except RpcError Nat)
  | reset (k : K) (v : Nat)
  | sync (f : K → Except RpcError Nat)

/-- The cache after one `NonceManager` call. -/
def applyNonceOp {K : Type} [DecidableEq K] (c : NonceCache K) : NonceOp K → NonceCache K
  | NonceOp.alloc k r => (get_next_nonce c k r).2
  | NonceOp.reset k v => reset_nonce c k v
  | NonceOp.sync f => (sync_with_chain c f).2

/-- The cache after a sequence of `NonceManager` calls. -/
def runNonceOps {K : Type} [DecidableEq K] (c : NonceCache K)
    (ops : List (NonceOp K)) : NonceCache K :=
  ops.foldl applyNonceOp c

/-! ## Cache lemmas -/

theorem NonceCache.get?_insert {K : Type} [DecidableEq K] (c : NonceCache K)
    (a k : K) (v : Nat) :
    NonceCache.get? (NonceCache.insert c a v) k =
      if a = k then some v else NonceCache.get? c k := by
  induction c with
  | nil => rfl
  | cons p l ih =>
    obtain ⟨x, y⟩ := p
    by_cases hxa : x = a
    · subst hxa
      by_cases hxk : x = k <;> simp [NonceCache.insert, NonceCache.get?, hxk]
    · by_cases hxk : x = k
      · subst hxk
        simp [NonceCache.insert, NonceCache.get?, hxa, Ne.symm hxa]
      · simp [NonceCache.insert, NonceCache.get?, hxa, hxk, ih]

theorem NonceCache.isSome_get?_iff {K : Type} [DecidableEq K] (c : NonceCache K)
    (k : K) :
    (NonceCache.get? c k).isSome = true ↔ k ∈ List.map Prod.fst c := by
  induction c with
  | nil => simp [NonceCache.get?]
  | cons p l ih =>
    obtain ⟨x, y⟩ := p
    by_cases hxk : x = k
    · subst hxk
      simp [NonceCache.get?]
    · simp [NonceCache.get?, hxk, Ne.symm hxk, ih]

theorem sync_with_chain_map_fst {K : Type} (c : NonceCache K)
    (f : K → Except RpcError Nat) :
    List.map Prod.fst (sync_with_chain c f).2 = List.map Prod.fst c := by
  induction c with
  | nil => rfl
  | cons p l ih =>
    obtain ⟨x, y⟩ := p
    cases hfx : f x with
    | error e => simp [sync_with_chain, hfx]
    | ok chain_nonce => simp [sync_with_chain, hfx, ih]

/-! ## Claim theorems -/

/-- Claim C1: `get_next_nonce` computes the candidate as the maximum of the
cached value and the authoritative chain nonce when a cache entry exists and
as the chain nonce otherwise, writes `candidate + 1` (wrapping `u64`
addition) back into the cache, and returns the candidate; with an empty cache
and authoritative value 5 it returns 5 and leaves 6 cached, and with cached 6
and authoritative 5 it returns 6 and leaves 7 cached. -/
theorem get_next_nonce_spec {K : Type} [DecidableEq K] (cache : NonceCache K)
    (k : K) (chain_nonce : Nat) :
    (get_next_nonce cache k (Except.ok chain_nonce) =
      (Except.ok (match NonceCache.get? cache k with
        | some cached => Nat.max cached chain_nonce
        | none => chain_nonce),
       NonceCache.insert cache k
         (((match NonceCache.get? cache k with
            | some cached => Nat.max cached chain_nonce
            | none => chain_nonce) + 1) % U64_SIZE)))
    ∧ (get_next_nonce ([] : NonceCache K) k (Except.ok 5)).1 = Except.ok 5
    ∧ NonceCache.get? (get_next_nonce ([] : NonceCache K) k (Except.ok 5)).2 k
        = some 6
    ∧ (get_next_nonce [(k, 6)] k (Except.ok 5)).1 = Except.ok 6
    ∧ NonceCache.get? (get_next_nonce [(k, 6)] k (Except.ok 5)).2 k = some 7 := by
  have h6 : (5 + 1) % U64_SIZE = 6 := by decide
  have hmax : Nat.max 6 5 = 6 := by decide
  have h7 : (7 : Nat) % U64_SIZE = 7 := by decide
  refine ⟨rfl, rfl, ?_, ?_, ?_⟩
  · simp [get_next_nonce, NonceCache.get?, NonceCache.insert, h6]
  · simp [get_next_nonce, NonceCache.get?, hmax]
  · simp [get_next_nonce, NonceCache.get?, NonceCache.insert, h7]

/-- Claim C4: if the authoritative-sequence fetch inside `get_next_nonce`
fails, the call returns the error and the nonce cache is left completely
unchanged, so a failed allocation is retryable without side effects. -/
theorem get_next_nonce_error_no_mutation {K : Type} [DecidableEq K]
    (cache : NonceCache K) (k : K) (e : RpcError) :
    get_next_nonce cache k (Except.error e) = (Except.error e, cache) := rfl

/-- Claim C10: `get_next_nonce` stores `candidate + 1` in unguarded `u64`
arithmetic; when the candidate is `u64::MAX` the increment wraps modulo
`2 ^ 64`, leaving 0 in the cache while `u64::MAX` is returned. -/
theorem get_next_nonce_wraps_at_u64_max :
    get_next_nonce ([(0, U64_SIZE - 1)] : NonceCache Nat) 0 (Except.ok 0) =
      (Except.ok (U64_SIZE - 1), [(0, 0)]) := by
  rfl

/-- Claim C3 counterexample: after `reset_nonce(X, 7)` on an empty cache, an
allocate that observes authoritative chain nonce 8 returns 8, not 7, even
though no reconciliation intervened and the cached value was never raised
above 7. -/
theorem reset_nonce_reuse_cex :
    (get_next_nonce (reset_nonce ([] : NonceCache Nat) 0 7) 0 (Except.ok 8)).1 =
      Except.ok 8 ∧
    (get_next_nonce (reset_nonce ([] : NonceCache Nat) 0 7) 0 (Except.ok 8)).1 ≠
      Except.ok 7 := by
  have h8 : (get_next_nonce (reset_nonce ([] : NonceCache Nat) 0 7) 0
      (Except.ok 8)).1 = Except.ok 8 := rfl
  refine ⟨h8, ?_⟩
  rw [h8]
  simp

/-- Claim C3 (amended): after `reset_nonce` with value `v`, the next
`get_next_nonce` for that identity returns exactly `v`, provided the
authoritative chain nonce observed by that allocation is at most `v` (and no
intervening reconciliation raised the cached value above `v`). -/
theorem reset_nonce_then_get_next_nonce {K : Type} [DecidableEq K]
    (cache : NonceCache K) (k : K) (v chain_nonce : Nat)
    (h : chain_nonce ≤ v) :
    (get_next_nonce (reset_nonce cache k v) k (Except.ok chain_nonce)).1 =
      Except.ok v := by
  simp [get_next_nonce, reset_nonce, NonceCache.get?_insert]
  omega

/-- Witness for `reset_nonce_then_get_next_nonce`: after an allocate returned
7 and was rolled back with `reset_nonce(X, 7)`, the next allocate (observing
authoritative value 5 ≤ 7) returns 7 again. -/
theorem reset_nonce_then_get_next_nonce_witness :
    (get_next_nonce (reset_nonce ([] : NonceCache Nat) 0 7) 0 (Except.ok 5)).1 =
      Except.ok 7 :=
  reset_nonce_then_get_next_nonce ([] : NonceCache Nat) 0 7 5 (by decide)

/-- Claim C7: `create_signed_transaction_with_nonce` returns the explicit
construction's transaction whenever that attempt succeeds; only when the
explicit attempt fails does it return the fallback's result, and when it
returns an error both attempts failed and the error is the fallback's. -/
theorem create_signed_fallback_policy {E T : Type}
    (explicitRes fallbackRes : Except E T) :
    (∀ t, explicitRes = Except.ok t →
      create_signed_transaction_with_nonce explicitRes fallbackRes =
        Except.ok t) ∧
    (∀ e, explicitRes = Except.error e →
      create_signed_transaction_with_nonce explicitRes fallbackRes =
        fallbackRes) ∧
    (∀ e, create_signed_transaction_with_nonce explicitRes fallbackRes =
        Except.error e →
      (∃ e0, explicitRes = Except.error e0) ∧
        fallbackRes = Except.error e) := by
  cases explicitRes with
  | ok t =>
    refine ⟨?_, ?_, ?_⟩
    · intro t' ht
      injection ht with ht'
      subst ht'
      rfl
    · intro e he
      simp at he
    · intro e he
      simp [create_signed_transaction_with_nonce] at he
  | error e0 =>
    refine ⟨?_, ?_, ?_⟩
    · intro t' ht
      simp at ht
    · intro e _
      rfl
    · intro e he
      exact ⟨⟨e0, rfl⟩, he⟩

/-- Witness for `create_signed_fallback_policy`: with both attempts failing,
the returned error is the fallback method's error. -/
theorem create_signed_fallback_policy_witness :
    create_signed_transaction_with_nonce
      (Except.error "explicit failed" : Except String Nat)
      (Except.error "fallback failed") = Except.error "fallback failed" :=
  (create_signed_fallback_policy (Except.error "explicit failed")
    (Except.error "fallback failed")).2.1 "explicit failed" rfl

/-- Claim C2 counterexample: with cache entries for identities 1 and 2 (both
cached at 3), an RPC that fails for identity 1 and reports authoritative
value 10 for identity 2 makes `sync_with_chain` return the error with
identity 2 still cached at 3: the sweep did not continue to the remaining
identity. -/
theorem sync_with_chain_skip_cex :
    (sync_with_chain ([(1, 3), (2, 3)] : NonceCache Nat)
      (fun k => if k = 1 then Except.error "down" else Except.ok 10)).1 =
      Except.error "down" ∧
    NonceCache.get? (sync_with_chain ([(1, 3), (2, 3)] : NonceCache Nat)
      (fun k => if k = 1 then Except.error "down" else Except.ok 10)).2 2 =
      some 3 :=
  ⟨rfl, rfl⟩

/-- Claim C2 (amended): if the authoritative-sequence RPC fails for an
identity during `sync_with_chain`, the sweep aborts at the first failing
identity: entries visited before it keep their (possibly raised) values, the
failing identity's entry and every later entry are left untouched, and the
error is returned to the caller, so a single unreachable identity does
prevent the remaining identities from being reconciled in that sweep. -/
theorem sync_with_chain_aborts {K : Type} (c : NonceCache K)
    (f : K → Except RpcError Nat) (e : RpcError)
    (h : (sync_with_chain c f).1 = Except.error e) :
    ∃ pre a b post,
      c = pre ++ (a, b) :: post ∧
      f a = Except.error e ∧
      (∀ p ∈ pre, ∃ chain_nonce, f p.1 = Except.ok chain_nonce) ∧
      (sync_with_chain c f).2 = List.map (syncEntry f) pre ++ (a, b) :: post := by
  induction c with
  | nil => simp [sync_with_chain] at h
  | cons p l ih =>
    obtain ⟨x, y⟩ := p
    cases hfx : f x with
    | error e' =>
      have hs : sync_with_chain ((x, y) :: l) f =
          (Except.error e', (x, y) :: l) := by
        simp [sync_with_chain, hfx]
      rw [hs] at h
      have he : e' = e := by simpa using h
      refine ⟨[], x, y, l, rfl, he ▸ hfx, by simp, ?_⟩
      rw [hs]
      simp
    | ok chain_nonce =>
      have hs : sync_with_chain ((x, y) :: l) f =
          ((sync_with_chain l f).1,
            (x, if chain_nonce > y then chain_nonce else y) ::
              (sync_with_chain l f).2) := by
        simp [sync_with_chain, hfx]
      rw [hs] at h
      simp only [] at h
      obtain ⟨pre, a, b, post, hc, hfa, hpre, htail⟩ := ih h
      refine ⟨(x, y) :: pre, a, b, post, by simp [hc], hfa, ?_, ?_⟩
      · intro q hq
        rcases List.mem_cons.mp hq with hqe | hql
        · subst hqe
          exact ⟨chain_nonce, hfx⟩
        · exact hpre q hql
      · rw [hs]
        simp [htail, syncEntry, hfx]

/-- Witness for `sync_with_chain_aborts`: the abort decomposition at the
concrete failing sweep of `sync_with_chain_skip_cex`. -/
theorem sync_with_chain_aborts_witness :
    ∃ pre a b post,
      ([(1, 3), (2, 3)] : NonceCache Nat) = pre ++ (a, b) :: post ∧
      (fun k => if k = 1 then (Except.error "down" : Except RpcError Nat)
        else Except.ok 10) a = Except.error "down" ∧
      (∀ p ∈ pre, ∃ chain_nonce,
        (fun k => if k = 1 then (Except.error "down" : Except RpcError Nat)
          else Except.ok 10) p.1 = Except.ok chain_nonce) ∧
      (sync_with_chain ([(1, 3), (2, 3)] : NonceCache Nat)
        (fun k => if k = 1 then Except.error "down" else Except.ok 10)).2 =
        List.map (syncEntry
          (fun k => if k = 1 then Except.error "down" else Except.ok 10))
          pre ++ (a, b) :: post :=
  sync_with_chain_aborts [(1, 3), (2, 3)]
    (fun k => if k = 1 then Except.error "down" else Except.ok 10) "down" rfl

/-- Claim C5: a completed `sync_with_chain` never lowers any cached value:
every cached value after the call is at least its value before the call, and
it changed only by being raised to a strictly greater authoritative chain
nonce. -/
theorem sync_with_chain_monotone {K : Type} [DecidableEq K] (c : NonceCache K)
    (f : K → Except RpcError Nat)
    (hok : (sync_with_chain c f).1 = Except.ok ())
    (k : K) (v : Nat) (hv : NonceCache.get? c k = some v) :
    ∃ w, NonceCache.get? (sync_with_chain c f).2 k = some w ∧ v ≤ w ∧
      (v < w → f k = Except.ok w) := by
  induction c with
  | nil => simp [NonceCache.get?] at hv
  | cons p l ih =>
    obtain ⟨x, y⟩ := p
    cases hfx : f x with
    | error e =>
      have hs : sync_with_chain ((x, y) :: l) f =
          (Except.error e, (x, y) :: l) := by
        simp [sync_with_chain, hfx]
      rw [hs] at hok
      simp at hok
    | ok chain_nonce =>
      have hs : sync_with_chain ((x, y) :: l) f =
          ((sync_with_chain l f).1,
            (x, if chain_nonce > y then chain_nonce else y) ::
              (sync_with_chain l f).2) := by
        simp [sync_with_chain, hfx]
      rw [hs] at hok ⊢
      simp only [] at hok
      by_cases hxk : x = k
      · subst hxk
        simp [NonceCache.get?] at hv
        subst hv
        by_cases hgt : chain_nonce > y
        · refine ⟨chain_nonce, ?_, ?_, ?_⟩
          · simp [NonceCache.get?, hgt]
          · omega
          · intro _
            exact hfx
        · refine ⟨y, ?_, ?_, ?_⟩
          · simp [NonceCache.get?, hgt]
          · omega
          · intro hlt
            omega
      · simp [NonceCache.get?, hxk] at hv
        obtain ⟨w, hw, hvw, himp⟩ := ih hok hv
        exact ⟨w, by simp [NonceCache.get?, hxk, hw], hvw, himp⟩

/-- Witness for `sync_with_chain_monotone`: with identity 0 cached at 3 and
authoritative value 10, the completed sweep leaves a value ≥ 3, raised only
because the chain reported it. -/
theorem sync_with_chain_monotone_witness :
    ∃ w, NonceCache.get? (sync_with_chain ([(0, 3)] : NonceCache Nat)
      (fun _ => Except.ok 10)).2 0 = some w ∧ 3 ≤ w ∧
      (3 < w → (fun _ => (Except.ok 10 : Except RpcError Nat)) 0 =
        Except.ok w) :=
  sync_with_chain_monotone [(0, 3)] (fun _ => Except.ok 10) rfl 0 3 rfl

/-- Claim C9: `sync_with_chain` never changes the set of identities in the
cache, whether the sweep completes or aborts on an RPC error: the key list is
preserved exactly, and an identity has an entry afterwards iff it had one
before. -/
theorem sync_with_chain_preserves_key_set {K : Type} [DecidableEq K]
    (c : NonceCache K) (f : K → Except RpcError Nat) :
    List.map Prod.fst (sync_with_chain c f).2 = List.map Prod.fst c ∧
    ∀ k : K, (NonceCache.get? (sync_with_chain c f).2 k).isSome =
      (NonceCache.get? c k).isSome := by
  refine ⟨sync_with_chain_map_fst c f, fun k => ?_⟩
  have h1 := NonceCache.isSome_get?_iff (sync_with_chain c f).2 k
  have h2 := NonceCache.isSome_get?_iff c k
  rw [sync_with_chain_map_fst c f] at h1
  by_cases hk : k ∈ List.map Prod.fst c
  · rw [h1.mpr hk, h2.mpr hk]
  · have b1 : (NonceCache.get? (sync_with_chain c f).2 k).isSome = false := by
      cases hb : (NonceCache.get? (sync_with_chain c f).2 k).isSome
      · rfl
      · exact absurd (h1.mp hb) hk
    have b2 : (NonceCache.get? c k).isSome = false := by
      cases hb : (NonceCache.get? c k).isSome
      · rfl
      · exact absurd (h2.mp hb) hk
    rw [b1, b2]

/-- Claim C6: in the request handler's submission flow, every outcome that is
not a successful finalization — construction failure, submission failure, and
finalization failure — invokes `reset_nonce` with the allocating identity and
the allocated nonce before the error response is returned. -/
theorem do_something_handler_rolls_back {K : Type} [DecidableEq K]
    (cache c1 : NonceCache K) (k : K) (chain_nonce n : Nat)
    (explicitRes fallbackRes submitRes finalizeRes : Except String Unit)
    (blockFetchOk : Bool)
    (halloc : get_next_nonce cache k (Except.ok chain_nonce) =
      (Except.ok n, c1))
    (hfail : (∃ e, create_signed_transaction_with_nonce explicitRes
        fallbackRes = Except.error e) ∨
      (∃ e, submitRes = Except.error e) ∨
      ∃ e, finalizeRes = Except.error e) :
    (do_something_handler cache true k (Except.ok chain_nonce) explicitRes
      fallbackRes submitRes finalizeRes blockFetchOk).1.success = false ∧
    (do_something_handler cache true k (Except.ok chain_nonce) explicitRes
      fallbackRes submitRes finalizeRes blockFetchOk).1.resets = [(k, n)] ∧
    (do_something_handler cache true k (Except.ok chain_nonce) explicitRes
      fallbackRes submitRes finalizeRes blockFetchOk).2 =
      reset_nonce c1 k n := by
  cases hc : create_signed_transaction_with_nonce explicitRes fallbackRes with
  | error e =>
    simp [do_something_handler, halloc, hc]
  | ok u =>
    cases hsub : submitRes with
    | error e =>
      simp [do_something_handler, halloc, hc, hsub]
    | ok u2 =>
      cases hfin : finalizeRes with
      | error e =>
        simp [do_something_handler, halloc, hc, hsub, hfin]
      | ok u3 =>
        exfalso
        rcases hfail with ⟨e, he⟩ | ⟨e, he⟩ | ⟨e, he⟩
        · rw [hc] at he
          exact Except.noConfusion he
        · rw [hsub] at he
          exact Except.noConfusion he
        · rw [hfin] at he
          exact Except.noConfusion he

/-- Witness for `do_something_handler_rolls_back`: a submission failure after
nonce 5 was allocated resets the cache entry to 5 and reports failure. -/
theorem do_something_handler_rolls_back_witness :
    (do_something_handler ([] : NonceCache Nat) true 0 (Except.ok 5)
      (Except.ok ()) (Except.ok ()) (Except.error "boom") (Except.ok ())
      true).1.success = false ∧
    (do_something_handler ([] : NonceCache Nat) true 0 (Except.ok 5)
      (Except.ok ()) (Except.ok ()) (Except.error "boom") (Except.ok ())
      true).1.resets = [(0, 5)] ∧
    (do_something_handler ([] : NonceCache Nat) true 0 (Except.ok 5)
      (Except.ok ()) (Except.ok ()) (Except.error "boom") (Except.ok ())
      true).2 = reset_nonce [(0, 6)] 0 5 :=
  do_something_handler_rolls_back [] [(0, 6)] 0 5 5 (Except.ok ())
    (Except.ok ()) (Except.error "boom") (Except.ok ()) true rfl
    (Or.inr (Or.inl ⟨"boom", rfl⟩))

/-- Claim C8 counterexample: `reset_nonce` called for an identity that has
never requested a sequence number creates a cache entry for it: starting from
the empty cache, `reset_nonce(X, 5)` leaves an entry `X ↦ 5`. -/
theorem reset_nonce_creates_entry_cex :
    NonceCache.get? ([] : NonceCache Nat) 0 = none ∧
    NonceCache.get? (reset_nonce ([] : NonceCache Nat) 0 5) 0 = some 5 :=
  ⟨rfl, rfl⟩

theorem applyNonceOp_isSome {K : Type} [DecidableEq K] (c : NonceCache K)
    (op : NonceOp K) (k : K) :
    (NonceCache.get? (applyNonceOp c op) k).isSome = true ↔
      (NonceCache.get? c k).isSome = true ∨
        (∃ chain_nonce, op = NonceOp.alloc k (Except.ok chain_nonce)) ∨
        ∃ v, op = NonceOp.reset k v := by
  cases op with
  | alloc a r =>
    cases r with
    | error e =>
      simp [applyNonceOp, get_next_nonce]
    | ok chain_nonce =>
      by_cases hk : a = k
      · subst hk
        simp [applyNonceOp, get_next_nonce, NonceCache.get?_insert]
      · simp [applyNonceOp, get_next_nonce, NonceCache.get?_insert, hk]
  | reset a v =>
    by_cases hk : a = k
    · subst hk
      simp [applyNonceOp, reset_nonce, NonceCache.get?_insert]
    · simp [applyNonceOp, reset_nonce, NonceCache.get?_insert, hk]
  | sync f =>
    simp only [applyNonceOp]
    rw [NonceCache.isSome_get?_iff, NonceCache.isSome_get?_iff,
      sync_with_chain_map_fst]
    simp

theorem runNonceOps_isSome {K : Type} [DecidableEq K] (ops : List (NonceOp K))
    (c : NonceCache K) (k : K) :
    (NonceCache.get? (runNonceOps c ops) k).isSome = true ↔
      (NonceCache.get? c k).isSome = true ∨
        ∃ op ∈ ops,
          (∃ chain_nonce, op = NonceOp.alloc k (Except.ok chain_nonce)) ∨
          ∃ v, op = NonceOp.reset k v := by
  induction ops generalizing c with
  | nil => simp [runNonceOps]
  | cons op rest ih =>
    have hstep : runNonceOps c (op :: rest) =
        runNonceOps (applyNonceOp c op) rest := rfl
    rw [hstep, ih, applyNonceOp_isSome]
    simp only [List.mem_cons]
    constructor
    · rintro ((hc | hop) | ⟨op', hmem, hop'⟩)
      · exact Or.inl hc
      · exact Or.inr ⟨op, Or.inl rfl, hop⟩
      · exact Or.inr ⟨op', Or.inr hmem, hop'⟩
    · rintro (hc | ⟨op', (rfl | hmem), hop'⟩)
      · exact Or.inl (Or.inl hc)
      · exact Or.inl (Or.inr hop')
      · exact Or.inr ⟨op', hmem, hop'⟩

/-- Claim C8 (amended): starting from the empty cache, an identity has a
cache entry after a sequence of `NonceManager` calls iff the sequence
contains a successful `get_next_nonce` allocation for it or a `reset_nonce`
call targeting it: entries are created lazily by the first such call, and
`sync_with_chain` never creates an entry for an identity that never requested
or rolled back a sequence number. -/
theorem nonce_cache_entry_creation {K : Type} [DecidableEq K]
    (ops : List (NonceOp K)) (k : K) :
    (NonceCache.get? (runNonceOps ([] : NonceCache K) ops) k).isSome = true ↔
      ∃ op ∈ ops,
        (∃ chain_nonce, op = NonceOp.alloc k (Except.ok chain_nonce)) ∨
        ∃ v, op = NonceOp.reset k v := by
  rw [runNonceOps_isSome]
  simp [NonceCache.get?]
